import Mathlib

/-!
Verification of the go-amd64-emulator core (`main.go`): a shallow embedding of
the memory/register model, the fetch-decode-execute loop, the bootstrap
(`cpu.run`), and the debugger value resolver, together with theorems checking
the specification's claims against this embedding.

Conventions of the embedding:
* Go `uint64` values are `Nat`s; every arithmetic operation that wraps in Go
  is performed modulo `2^64` (`add64`, `sub64`, and the explicit `% w64` on
  memory indices).
* Go byte slices are `List Nat`; a read of a slice element is taken modulo
  256, reflecting that a Go `byte` is always below 256.
* Go panics (out-of-bounds indexing, the unknown-instruction panic) are the
  `none` / `.fault` branches of the corresponding definitions.
-/

namespace Emu

/-- `2^64`, the modulus of Go `uint64` arithmetic. -/
def w64 : Nat := 2 ^ 64

/-- Go `uint64` addition (wraps modulo `2^64`). -/
def add64 (a b : Nat) : Nat := (a + b) % w64

/-- Go `uint64` subtraction (wraps modulo `2^64`). For `a, b < w64` this is
the usual two's-complement wrap-around difference. -/
def sub64 (a b : Nat) : Nat := (a + (w64 - b % w64)) % w64

/-! Register indices, in the encoding order of the `register` enum of
`main.go` (`rax = iota`, …, `rflags`). -/

def rax : Nat := 0
def rcx : Nat := 1
def rdx : Nat := 2
def rbx : Nat := 3
def rsp : Nat := 4
def rbp : Nat := 5
def rsi : Nat := 6
def rdi : Nat := 7
def r8 : Nat := 8
def r9 : Nat := 9
def r10 : Nat := 10
def r11 : Nat := 11
def r12 : Nat := 12
def r13 : Nat := 13
def r14 : Nat := 14
def r15 : Nat := 15
def rip : Nat := 16
def rflags : Nat := 17

/-- The `registerMap` of `main.go`: register index paired with its name.
(Go iterates the map in arbitrary order; since the names are pairwise
distinct, the order is irrelevant to `resolveDebuggerValue`.) -/
def registerMap : List (Nat × String) :=
  [(rax, "rax"), (rcx, "rcx"), (rdx, "rdx"), (rbx, "rbx"),
   (rsp, "rsp"), (rbp, "rbp"), (rsi, "rsi"), (rdi, "rdi"),
   (r8, "r8"), (r9, "r9"), (r10, "r10"), (r11, "r11"),
   (r12, "r12"), (r13, "r13"), (r14, "r14"), (r15, "r15"),
   (rip, "rip"), (rflags, "rflags")]

/-- The register file: a total map from register index to stored value.
(`main.go` uses `[18]uint64`; only indices 0–17 are ever used.) -/
def RegFile : Type := Nat → Nat

/-- `registerFile.set`: functional update of one register slot. -/
def regSet (f : RegFile) (r v : Nat) : RegFile :=
  fun i => if i = r then v else f i

/-- `readBytes(from, start, bytes)` of `main.go`:
`val |= uint64(from[start+uint64(i)]) << (8*i)` for `i = 0 .. bytes-1`,
phrased as structural recursion on the byte count (the byte at `start`
contributes the low 8 bits, the remaining bytes are shifted left by 8).
The Go index `start+uint64(i)` is a wrapping `uint64` sum, hence `% w64`;
an out-of-bounds index panics in Go, hence `none` here. -/
def readBytes (mem : List Nat) : Nat → Nat → Option Nat
  | _, 0 => some 0
  | start, n + 1 =>
    match mem[start % w64]?, readBytes mem (start + 1) n with
    | some b, some rest => some ((b % 256) ||| (rest <<< 8))
    | _, _ => none

/-- `writeBytes(to, start, bytes, val)` of `main.go`:
`to[start+uint64(i)] = byte(val >> (8*i) & 0xFF)` for `i = 0 .. bytes-1`,
phrased as structural recursion on the byte count (write the low byte at
`start`, then recurse on `val >> 8`). An out-of-bounds index panics in Go,
hence `none` here (Go would have performed the earlier in-bounds writes
before panicking; no claim below inspects memory after such a panic). -/
def writeBytes : List Nat → Nat → Nat → Nat → Option (List Nat)
  | mem, _, 0, _ => some mem
  | mem, start, n + 1, v =>
    if start % w64 < mem.length then
      writeBytes (mem.set (start % w64) (v &&& 0xFF)) (start + 1) n (v >>> 8)
    else none

/-- `writeBytes` then `readBytes` over the same range (the round-trip of the
spec's law). -/
def writeThenRead (mem : List Nat) (a w v : Nat) : Option Nat :=
  (writeBytes mem a w v).bind fun m => readBytes m a w

/-- The mutable state of the `cpu` of `main.go` that the loop touches:
the flat memory and the register file. -/
structure CPUState where
  mem : List Nat
  regs : RegFile

/-- Result of one iteration of `cpu.loop`:
* `halt s` — the instruction pointer equals the sentinel return address and
  the loop breaks (state unchanged);
* `next s` — one instruction was decoded and executed, yielding state `s`;
* `fault s` — a Go panic (unknown instruction, or out-of-bounds memory
  indexing). The carried state is the state at entry to the iteration: for
  the unknown-instruction panic and for faults during a fetch or a read this
  is exact (nothing was mutated before the panic); for an out-of-bounds
  `writeBytes` during `push`, Go performs the in-bounds writes before
  panicking, which this embedding does not track (the spec declares the
  state at a fault undefined, and no claim inspects it). -/
inductive StepResult where
  | halt (s : CPUState)
  | next (s : CPUState)
  | fault (s : CPUState)

/-- The operand-size-override scan at the head of `cpu.loop`'s body: while
the byte at `ip` is `0x48` (sets 64-bit width) or `0x66` (sets 16-bit
width), advance `ip` and re-fetch. Returns the final `ip`, the selected
width, and the first non-override byte, or `none` when a fetch indexes out
of bounds (a Go panic). The `panic("Unknown prefix instruction")` branch of
the source is unreachable (`prefixBytes` holds exactly `0x48` and `0x66`),
so it has no counterpart here. Local `ip` increments are not reduced modulo
`2^64`: while `mem.length < 2^64`, an `ip` that would wrap hits an
out-of-bounds fetch first, exactly as in Go. -/
def pfxScan (mem : List Nat) (ip wdt : Nat) : Option (Nat × Nat × Nat) :=
  if h : ip < mem.length then
    let b := mem[ip] % 256
    if b = 0x48 then pfxScan mem (ip + 1) 64
    else if b = 0x66 then pfxScan mem (ip + 1) 16
    else some (ip, wdt, b)
  else none
termination_by mem.length - ip
decreasing_by all_goals omega

/-- The decode-execute if-chain of `cpu.loop`, entered with the
instruction pointer `ip` and opcode byte `inb1` left by the width-override
scan and the selected operand width `wdt`. Mirrors the
`if inb1 >= 0x50 && inb1 < 0x58 { … } else if … else { panic }` chain of
the source, including the final `c.regfile.set(rip, ip+1)` advance that
every branch but `ret` (which `continue`s) falls through to. -/
def exec (s : CPUState) (ip wdt inb1 : Nat) : StepResult :=
      if 0x50 ≤ inb1 ∧ inb1 < 0x58 then
        -- push: regvalue := regfile[inb1-0x50]; sp := regfile[rsp];
        -- write regvalue at sp-8, decrement rsp
        match writeBytes s.mem (sub64 (s.regs rsp) 8) 8 (s.regs (inb1 - 0x50)) with
        | none => .fault s
        | some m =>
          .next ⟨m, regSet (regSet s.regs rsp (sub64 (s.regs rsp) 8))
            rip (add64 ip 1)⟩
      else if 0x58 ≤ inb1 ∧ inb1 < 0x60 then
        -- pop: lhs := inb1-0x58; read 8 bytes at rsp into lhs, increment rsp
        match readBytes s.mem (s.regs rsp) 8 with
        | none => .fault s
        | some v =>
          .next ⟨s.mem,
            regSet (regSet (regSet s.regs (inb1 - 0x58) v)
              rsp (add64 (s.regs rsp) 8)) rip (add64 ip 1)⟩
      else if inb1 = 0x89 then
        -- mov reg, reg: mode byte inb2 picks source (bits 3-5, rhs) and
        -- destination (bits 0-2, lhs)
        match s.mem[ip + 1]? with
        | none => .fault s
        | some inb2 =>
          .next ⟨s.mem,
            regSet (regSet s.regs ((inb2 % 256) &&& 0b111)
                (s.regs (((inb2 % 256) &&& 0b00111000) >>> 3)))
              rip (add64 (ip + 1) 1)⟩
      else if 0xB8 ≤ inb1 ∧ inb1 < 0xC0 then
        -- mov reg, imm: lreg := inb1-0xB8; read wdt/8 immediate bytes,
        -- advance ip past them
        match readBytes s.mem (ip + 1) (wdt / 8) with
        | none => .fault s
        | some v =>
          .next ⟨s.mem, regSet (regSet s.regs (inb1 - 0xB8) v)
            rip (add64 (add64 ip (wdt / 8)) 1)⟩
      else if inb1 = 0xC3 then
        -- ret: pop the return address into rip; skips the generic +1 advance
        match readBytes s.mem (s.regs rsp) 8 with
        | none => .fault s
        | some retAddress =>
          .next ⟨s.mem, regSet (regSet s.regs rsp (add64 (s.regs rsp) 8))
            rip retAddress⟩
      else
        -- hbdebug dump + panic("Unknown instruction")
        .fault s

/-- One iteration of the `for` loop of `cpu.loop(entryReturnAddress)`:
check the sentinel, scan width-override bytes (default width 32), then
decode and execute one instruction via `exec`. `era` is
`entryReturnAddress`. -/
def step (era : Nat) (s : CPUState) : StepResult :=
  if s.regs rip = era then .halt s
  else
    match pfxScan s.mem (s.regs rip) 32 with
    | none => .fault s
    | some (ip, wdt, inb1) => exec s ip wdt inb1

/-- The state after one `step` when it executed an instruction, `none`
otherwise. -/
def stepNext (era : Nat) (s : CPUState) : Option CPUState :=
  match step era s with
  | .next t => some t
  | _ => none

/-- The value of register `r` after one executed `step`. -/
def regAfter (era : Nat) (s : CPUState) (r : Nat) : Option Nat :=
  (stepNext era s).map fun t => t.regs r

/-- `n` consecutive executed iterations of the loop (`halt` and `fault` end
the sequence). The states `s'` with `stepN era n s = some s'` are exactly
the states reachable from `s` by engine steps. -/
def stepN (era : Nat) : Nat → CPUState → Option CPUState
  | 0, s => some s
  | n + 1, s =>
    match step era s with
    | .next t => stepN era n t
    | _ => none

/-- Run the loop with the given fuel until it halts; `some` of the halt
state on normal termination, `none` on a fault or if the fuel runs out. -/
def runLoop (era : Nat) : Nat → CPUState → Option CPUState
  | 0, _ => none
  | n + 1, s =>
    match step era s with
    | .halt t => some t
    | .next t => runLoop era n t
    | .fault _ => none

/-- `copy(c.mem[startAddress:startAddress+len(bin)], bin)` of `cpu.run`:
overwrite memory with the program bytes, one by one. (Go panics if the
slice bounds exceed memory; the theorems below only use in-bounds copies,
where `List.set` agrees with Go's `copy`.) -/
def memCopy : List Nat → Nat → List Nat → List Nat
  | mem, _, [] => mem
  | mem, start, b :: rest => memCopy (mem.set start (b % 256)) (start + 1) rest

/-- The state prepared by `cpu.run` before entering `cpu.loop`, for a cpu
fresh from `newCPU(memSize)` (zeroed memory, zeroed registers): program
bytes copied at `startAddress`, `rip := entryPoint`, the sentinel value
`len(mem)-8` written at address `len(mem)-8`, and `rsp := len(mem)-8`.
`none` when the sentinel write is out of bounds. -/
def initState (memSize startAddress entryPoint : Nat) (bin : List Nat) :
    Option CPUState :=
  match writeBytes (memCopy (List.replicate memSize 0) startAddress bin)
      (sub64 memSize 8) 8 (sub64 memSize 8) with
  | none => none
  | some m =>
    some ⟨m, regSet (regSet (fun _ => 0) rip entryPoint)
      rsp (sub64 memSize 8)⟩

/-- `os.Exit(int(c.regfile.get(rax)))`: the Go `int` (64-bit, two's
complement) obtained from the accumulator's `uint64` value. -/
def exitStatus (s : CPUState) : Int :=
  let v := s.regs rax % w64
  if v < 2 ^ 63 then (v : Int) else (v : Int) - (2 ^ 64 : Int)

/-- `cpu.run` end to end, with fuel for the loop: bootstrap, run the loop
with sentinel `len(mem)-8`, and report the exit status. -/
def runEmu (memSize startAddress entryPoint : Nat) (bin : List Nat)
    (fuel : Nat) : Option Int :=
  match initState memSize startAddress entryPoint bin with
  | none => none
  | some s0 => (runLoop (sub64 memSize 8) fuel s0).map exitStatus

/-! The debugger value resolver (`cpu.resolveDebuggerValue`) and its model
of Go's `strconv.ParseUint(s, base, 64)`. -/

/-- Digit value of one character, as in `strconv`: `0`–`9`, then letters
(case-insensitive) from value 10 up; `none` for any other character. -/
def digitVal (c : Char) : Option Nat :=
  if '0' ≤ c ∧ c ≤ '9' then some (c.toNat - '0'.toNat)
  else if 'a' ≤ c ∧ c ≤ 'z' then some (c.toNat - 'a'.toNat + 10)
  else if 'A' ≤ c ∧ c ≤ 'Z' then some (c.toNat - 'A'.toNat + 10)
  else none

/-- Accumulate digits left to right; fails on a character that is not a
digit of the base. -/
def parseUintCore (base : Nat) : List Char → Nat → Option Nat
  | [], acc => some acc
  | c :: rest, acc =>
    match digitVal c with
    | none => none
    | some d => if d < base then parseUintCore base rest (acc * base + d) else none

/-- `strconv.ParseUint(s, base, 64)`: rejects the empty string, any
non-digit, and any value that overflows 64 bits (Go raises a range error at
the first overflowing intermediate value; since the accumulated value is
monotone in the digits consumed, that is equivalent to the final value
being `≥ 2^64`). -/
def parseUintGo (base : Nat) (s : String) : Option Nat :=
  if s.isEmpty then none
  else
    match parseUintCore base s.data 0 with
    | none => none
    | some n => if n < w64 then some n else none

/-- `cpu.resolveDebuggerValue(dval)`: (1) a register name resolves to that
register's current value; (2) otherwise a `0x`/`0X`-prefixed token longer
than two characters parses as hexadecimal; (3) otherwise the token parses
as decimal. Pure: only reads the register file. -/
def resolveDebuggerValue (regs : RegFile) (dval : String) : Option Nat :=
  match registerMap.find? (fun p => p.2 == dval) with
  | some p => some (regs p.1)
  | none =>
    if dval.length > 2 ∧ (dval.take 2 = "0x" ∨ dval.take 2 = "0X") then
      parseUintGo 16 (dval.drop 2)
    else
      parseUintGo 10 dval

/-! ### Lemmas about the byte codec -/

theorem mod_w64_eq {a : Nat} (h : a < w64) : a % w64 = a := Nat.mod_eq_of_lt h

theorem readBytes_succ (mem : List Nat) (a n : Nat) :
    readBytes mem a (n + 1) =
      match mem[a % w64]?, readBytes mem (a + 1) n with
      | some b, some rest => some ((b % 256) ||| (rest <<< 8))
      | _, _ => none := rfl

theorem writeBytes_succ (mem : List Nat) (a n v : Nat) :
    writeBytes mem a (n + 1) v =
      if a % w64 < mem.length then
        writeBytes (mem.set (a % w64) (v &&& 0xFF)) (a + 1) n (v >>> 8)
      else none := rfl

/-- A value assembled by `readBytes` from `n` bytes is below `2^(8n)`. -/
theorem readBytes_lt : ∀ (n : Nat) (mem : List Nat) (a v : Nat),
    readBytes mem a n = some v → v < 2 ^ (8 * n)
  | 0, _, _, _, h => by
    simp only [readBytes, Option.some.injEq] at h
    omega
  | n + 1, mem, a, v, h => by
    rw [readBytes_succ] at h
    match hb : mem[a % w64]?, hr : readBytes mem (a + 1) n with
    | some b, some rest =>
      rw [hb, hr] at h
      have hrest := readBytes_lt n mem (a + 1) rest hr
      have h1 : b % 256 < 2 ^ (8 * (n + 1)) := by
        have : (256 : Nat) ≤ 2 ^ (8 * (n + 1)) := by
          calc (256 : Nat) = 2 ^ 8 := by norm_num
          _ ≤ 2 ^ (8 * (n + 1)) := Nat.pow_le_pow_right (by norm_num) (by omega)
        omega
      have h2 : rest <<< 8 < 2 ^ (8 * (n + 1)) := by
        rw [Nat.shiftLeft_eq]
        calc rest * 2 ^ 8 < 2 ^ (8 * n) * 2 ^ 8 :=
              (Nat.mul_lt_mul_right (by norm_num)).mpr hrest
        _ = 2 ^ (8 * (n + 1)) := by rw [← Nat.pow_add]; ring_nf
      have := Nat.or_lt_two_pow h1 h2
      simp only [Option.some.injEq] at h
      omega
    | some _, none => rw [hb, hr] at h; exact absurd h (by simp)
    | none, _ => rw [hb] at h; exact absurd h (by simp)

/-- `writeBytes` never changes the length of the memory. -/
theorem writeBytes_length : ∀ (n : Nat) (mem : List Nat) (a v : Nat) (m : List Nat),
    writeBytes mem a n v = some m → m.length = mem.length
  | 0, mem, a, v, m, h => by
    simp only [writeBytes, Option.some.injEq] at h
    rw [← h]
  | n + 1, mem, a, v, m, h => by
    rw [writeBytes_succ] at h
    by_cases hlt : a % w64 < mem.length
    · rw [if_pos hlt] at h
      have := writeBytes_length n (mem.set (a % w64) (v &&& 0xFF)) (a + 1) (v >>> 8) m h
      simpa using this
    · rw [if_neg hlt] at h
      exact absurd h (by simp)

/-- A `writeBytes` whose range lies within bounds succeeds. -/
theorem writeBytes_isSome : ∀ (n : Nat) (mem : List Nat) (a v : Nat),
    mem.length < w64 → a + n ≤ mem.length →
    ∃ m, writeBytes mem a n v = some m
  | 0, mem, a, v, _, _ => ⟨mem, rfl⟩
  | n + 1, mem, a, v, hw, hb => by
    have ha : a % w64 = a := mod_w64_eq (by omega)
    rw [writeBytes_succ, ha, if_pos (by omega)]
    exact writeBytes_isSome n _ (a + 1) (v >>> 8) (by simpa using hw) (by simp; omega)

/-- Bytes outside the written range are untouched by an in-bounds
`writeBytes`. -/
theorem writeBytes_getElem?_outside :
    ∀ (n : Nat) (mem : List Nat) (a v : Nat) (m : List Nat) (j : Nat),
    mem.length < w64 → a + n ≤ mem.length →
    writeBytes mem a n v = some m → (j < a ∨ a + n ≤ j) → m[j]? = mem[j]?
  | 0, mem, a, v, m, j, _, _, h, _ => by
    simp only [writeBytes, Option.some.injEq] at h
    rw [← h]
  | n + 1, mem, a, v, m, j, hw, hb, h, hj => by
    have ha : a % w64 = a := mod_w64_eq (by omega)
    rw [writeBytes_succ, ha, if_pos (by omega)] at h
    have ih := writeBytes_getElem?_outside n (mem.set a (v &&& 0xFF)) (a + 1)
      (v >>> 8) m j (by simpa using hw) (by simp; omega) h (by omega)
    rw [ih, List.getElem?_set_ne (by omega)]

/-- A `readBytes` whose range lies within bounds succeeds. -/
theorem readBytes_isSome : ∀ (n : Nat) (mem : List Nat) (a : Nat),
    mem.length < w64 → a + n ≤ mem.length →
    ∃ v, readBytes mem a n = some v
  | 0, mem, a, _, _ => ⟨0, rfl⟩
  | n + 1, mem, a, hw, hb => by
    have ha : a % w64 = a := mod_w64_eq (by omega)
    obtain ⟨rest, hrest⟩ := readBytes_isSome n mem (a + 1) hw (by omega)
    have hsome : a < mem.length := by omega
    obtain ⟨b, hb'⟩ : ∃ b, mem[a]? = some b :=
      ⟨_, List.getElem?_eq_getElem hsome⟩
    exact ⟨(b % 256) ||| (rest <<< 8), by rw [readBytes_succ, ha, hb', hrest]⟩

/-- A `readBytes` that exceeds the bounds fails (it does not wrap to an
in-bounds address). -/
theorem readBytes_none : ∀ (n : Nat) (mem : List Nat) (a : Nat),
    a < w64 → mem.length < w64 → mem.length < a + (n + 1) →
    readBytes mem a (n + 1) = none
  | 0, mem, a, haw, hw, hb => by
    have ha : a % w64 = a := mod_w64_eq haw
    have : mem[a]? = none := List.getElem?_eq_none (by omega)
    rw [readBytes_succ, ha, this]
  | n + 1, mem, a, haw, hw, hb => by
    have ha : a % w64 = a := mod_w64_eq haw
    rw [readBytes_succ, ha]
    by_cases hlt : a < mem.length
    · have : readBytes mem (a + 1) (n + 1) = none :=
        readBytes_none n mem (a + 1) (by omega) hw (by omega)
      rw [this]
      match mem[a]? with
      | some _ => rfl
      | none => rfl
    · have : mem[a]? = none := List.getElem?_eq_none (by omega)
      rw [this]

/-- A `writeBytes` that exceeds the bounds fails (it does not wrap to an
in-bounds address). -/
theorem writeBytes_none : ∀ (n : Nat) (mem : List Nat) (a v : Nat),
    a < w64 → mem.length < w64 → mem.length < a + (n + 1) →
    writeBytes mem a (n + 1) v = none
  | 0, mem, a, v, haw, hw, hb => by
    have ha : a % w64 = a := mod_w64_eq haw
    rw [writeBytes_succ, ha, if_neg (by omega)]
  | n + 1, mem, a, v, haw, hw, hb => by
    have ha : a % w64 = a := mod_w64_eq haw
    rw [writeBytes_succ, ha]
    by_cases hlt : a < mem.length
    · rw [if_pos hlt]
      exact writeBytes_none n _ (a + 1) (v >>> 8) (by omega) (by simpa using hw)
        (by simp; omega)
    · rw [if_neg hlt]

/-- Little-endian reassembly: an in-bounds `writeBytes` followed by
`readBytes` of the same range recovers the value modulo `2^(8n)`. -/
theorem writeThenRead_eq : ∀ (n : Nat) (mem : List Nat) (a v : Nat),
    mem.length < w64 → a + n ≤ mem.length →
    writeThenRead mem a n v = some (v % 2 ^ (8 * n))
  | 0, mem, a, v, _, _ => by
    simp only [writeThenRead, writeBytes, readBytes, Option.some_bind,
      Nat.mul_zero, Nat.pow_zero, Nat.mod_one]
  | n + 1, mem, a, v, hw, hb => by
    have ha : a % w64 = a := mod_w64_eq (by omega)
    have hih := writeThenRead_eq n (mem.set a (v &&& 0xFF)) (a + 1) (v >>> 8)
      (by simpa using hw) (by simp only [List.length_set]; omega)
    simp only [writeThenRead] at hih ⊢
    rw [writeBytes_succ, ha, if_pos (by omega)]
    obtain ⟨m, hm⟩ := writeBytes_isSome n (mem.set a (v &&& 0xFF)) (a + 1)
      (v >>> 8) (by simpa using hw) (by simp only [List.length_set]; omega)
    rw [hm] at hih ⊢
    simp only [Option.some_bind] at hih ⊢
    have hma : m[a]? = some (v &&& 0xFF) := by
      have houtside := writeBytes_getElem?_outside n (mem.set a (v &&& 0xFF))
        (a + 1) (v >>> 8) m a (by simpa using hw)
        (by simp only [List.length_set]; omega) hm (by omega)
      rw [houtside, List.getElem?_set_self (by omega)]
    rw [readBytes_succ, ha, hma, hih]
    have hand : v &&& 0xFF = v % 2 ^ 8 := by
      have := Nat.and_pow_two_sub_one_eq_mod v 8
      norm_num at this ⊢
      exact this
    have hshift : v >>> 8 = v / 2 ^ 8 := Nat.shiftRight_eq_div_pow v 8
    simp only [hand, hshift, Nat.mod_mod_of_dvd _ (by norm_num : (256 : Nat) ∣ 256),
      Nat.shiftLeft_eq, Option.some.injEq]
    have hmod : v % 2 ^ 8 % 256 = v % 2 ^ 8 := Nat.mod_eq_of_lt (by
      have : v % 2 ^ 8 < 2 ^ 8 := Nat.mod_lt _ (by norm_num)
      omega)
    rw [hmod, Nat.or_comm, Nat.mul_comm (v / 2 ^ 8 % 2 ^ (8 * n)) (2 ^ 8),
      ← Nat.mul_add_lt_is_or (Nat.mod_lt _ (by norm_num)) _,
      show 8 * (n + 1) = 8 + 8 * n by ring, Nat.pow_add, Nat.mod_mul]
    omega

/-! ### Lemmas about the fetch-decode-execute step -/

theorem add64_eq {a b : Nat} (h : a + b < w64) : add64 a b = a + b :=
  Nat.mod_eq_of_lt h

theorem sub64_eq {a b : Nat} (hb : b ≤ a) (ha : a < w64) (hbw : b < w64) :
    sub64 a b = a - b := by
  unfold sub64
  rw [Nat.mod_eq_of_lt hbw, show a + (w64 - b) = a - b + w64 by omega,
    Nat.add_mod_right, Nat.mod_eq_of_lt (by omega)]

/-- A fetched byte that is not a width override ends the scan. -/
theorem pfxScan_stop (mem : List Nat) (ip b wdt : Nat)
    (hfetch : mem[ip]? = some b) (h48 : b % 256 ≠ 0x48) (h66 : b % 256 ≠ 0x66) :
    pfxScan mem ip wdt = some (ip, wdt, b % 256) := by
  obtain ⟨hlt, hb⟩ := List.getElem?_eq_some_iff.mp hfetch
  unfold pfxScan
  rw [dif_pos hlt]
  simp only [hb, if_neg h48, if_neg h66]

/-- A fetched `0x48` byte selects 64-bit width and re-fetches. -/
theorem pfxScan_skip48 (mem : List Nat) (ip b wdt : Nat)
    (hfetch : mem[ip]? = some b) (h : b % 256 = 0x48) :
    pfxScan mem ip wdt = pfxScan mem (ip + 1) 64 := by
  obtain ⟨hlt, hb⟩ := List.getElem?_eq_some_iff.mp hfetch
  conv_lhs => unfold pfxScan
  rw [dif_pos hlt]
  simp [hb, h]

/-- A fetched `0x66` byte selects 16-bit width and re-fetches. -/
theorem pfxScan_skip66 (mem : List Nat) (ip b wdt : Nat)
    (hfetch : mem[ip]? = some b) (h : b % 256 = 0x66) :
    pfxScan mem ip wdt = pfxScan mem (ip + 1) 16 := by
  obtain ⟨hlt, hb⟩ := List.getElem?_eq_some_iff.mp hfetch
  conv_lhs => unfold pfxScan
  rw [dif_pos hlt]
  simp [hb, h]

/-- A fetch outside the memory faults the scan. -/
theorem pfxScan_oob {mem : List Nat} {ip : Nat} (wdt : Nat)
    (h : mem.length ≤ ip) : pfxScan mem ip wdt = none := by
  unfold pfxScan
  rw [dif_neg (by omega)]

theorem step_halt {era : Nat} {s : CPUState} (h : s.regs rip = era) :
    step era s = .halt s := by
  unfold step
  rw [if_pos h]

theorem step_decode {era : Nat} {s : CPUState} {ip wdt b : Nat}
    (hne : s.regs rip ≠ era)
    (hscan : pfxScan s.mem (s.regs rip) 32 = some (ip, wdt, b)) :
    step era s = exec s ip wdt b := by
  unfold step
  rw [if_neg hne, hscan]

theorem exec_push (s : CPUState) (ip wdt r : Nat) (hr : r < 8) {m : List Nat}
    (hw : writeBytes s.mem (sub64 (s.regs rsp) 8) 8 (s.regs r) = some m) :
    exec s ip wdt (0x50 + r) =
      .next ⟨m, regSet (regSet s.regs rsp (sub64 (s.regs rsp) 8))
        rip (add64 ip 1)⟩ := by
  unfold exec
  rw [if_pos (by omega)]
  simp only [show 0x50 + r - 0x50 = r from by omega, hw]

theorem exec_pop (s : CPUState) (ip wdt r : Nat) (hr : r < 8) {v : Nat}
    (hread : readBytes s.mem (s.regs rsp) 8 = some v) :
    exec s ip wdt (0x58 + r) =
      .next ⟨s.mem, regSet (regSet (regSet s.regs r v)
        rsp (add64 (s.regs rsp) 8)) rip (add64 ip 1)⟩ := by
  unfold exec
  rw [if_neg (by omega), if_pos (by omega)]
  simp only [show 0x58 + r - 0x58 = r from by omega, hread]

theorem exec_movimm (s : CPUState) (ip wdt r : Nat) (hr : r < 8) {v : Nat}
    (hread : readBytes s.mem (ip + 1) (wdt / 8) = some v) :
    exec s ip wdt (0xB8 + r) =
      .next ⟨s.mem, regSet (regSet s.regs r v)
        rip (add64 (add64 ip (wdt / 8)) 1)⟩ := by
  unfold exec
  rw [if_neg (by omega), if_neg (by omega), if_neg (by omega), if_pos (by omega)]
  simp only [show 0xB8 + r - 0xB8 = r from by omega, hread]

theorem exec_ret (s : CPUState) (ip wdt : Nat) {ra : Nat}
    (hread : readBytes s.mem (s.regs rsp) 8 = some ra) :
    exec s ip wdt 0xC3 =
      .next ⟨s.mem, regSet (regSet s.regs rsp (add64 (s.regs rsp) 8))
        rip ra⟩ := by
  unfold exec
  rw [if_neg (by omega), if_neg (by omega), if_neg (by omega), if_neg (by omega),
    if_pos rfl]
  simp only [hread]

theorem exec_unknown (s : CPUState) (ip wdt b : Nat)
    (h1 : ¬(0x50 ≤ b ∧ b < 0x58)) (h2 : ¬(0x58 ≤ b ∧ b < 0x60))
    (h3 : b ≠ 0x89) (h4 : ¬(0xB8 ≤ b ∧ b < 0xC0)) (h5 : b ≠ 0xC3) :
    exec s ip wdt b = .fault s := by
  unfold exec
  rw [if_neg h1, if_neg h2, if_neg h3, if_neg h4, if_neg h5]

theorem regSet_self (f : RegFile) (r v : Nat) : regSet f r v r = v := by
  simp [regSet]

theorem regSet_other {f : RegFile} {r v i : Nat} (h : i ≠ r) :
    regSet f r v i = f i := by
  simp [regSet, h]

theorem runLoop_succ (era n : Nat) (s : CPUState) :
    runLoop era (n + 1) s =
      match step era s with
      | .halt t => some t
      | .next t => runLoop era n t
      | .fault _ => none := rfl

theorem stepN_succ (era n : Nat) (s : CPUState) :
    stepN era (n + 1) s =
      match step era s with
      | .next t => stepN era n t
      | _ => none := rfl

/-! ### Claim theorems -/

/-- C2: for every memory buffer `m`, every address `a` with `a + w` within
bounds, every width `w ∈ {1,2,4,8}` and every value `v`, `writeBytes`
followed by `readBytes` over the same range returns `v mod 2^(8w)` — the
low `w` bytes of `v`, stored and read little-endian. -/
theorem write_read_roundtrip (m : List Nat) (a w v : Nat)
    (_hw : w = 1 ∨ w = 2 ∨ w = 4 ∨ w = 8) (hb : a + w ≤ m.length)
    (hlen : m.length < w64) :
    writeThenRead m a w v = some (v % 2 ^ (8 * w)) :=
  writeThenRead_eq w m a v hlen hb

theorem write_read_roundtrip_witness :
    writeThenRead (List.replicate 12 0) 3 4 0xAABBCCDDEE =
      some (0xAABBCCDDEE % 2 ^ (8 * 4)) ∧
    0xAABBCCDDEE % 2 ^ (8 * 4) = 0xBBCCDDEE :=
  ⟨write_read_roundtrip (List.replicate 12 0) 3 4 0xAABBCCDDEE
    (by norm_num) (by norm_num) (by norm_num [w64]), by norm_num⟩

/-- C1: for a freshly constructed cpu whose memory holds, starting at the
entry address, the single byte `0xC3` (`ret`), with the sentinel value
`len(memory)-8` written at address `len(memory)-8` and the stack pointer
set there (exactly the bootstrap `cpu.run` performs), the engine loop
terminates — two loop iterations suffice — and the reported exit status is
the accumulator `rax`'s initial value, 0 for a freshly constructed register
file. -/
theorem ret_program_terminates (memSize entry : Nat)
    (hlen : memSize < w64) (hentry : entry < memSize - 8) :
    runEmu memSize entry entry [0xC3] 2 = some 0 := by
  have h9 : 9 ≤ memSize := by omega
  have hsub : sub64 memSize 8 = memSize - 8 :=
    sub64_eq (by omega) hlen (by norm_num [w64])
  have hcopy : memCopy (List.replicate memSize 0) entry [0xC3] =
      (List.replicate memSize 0).set entry 0xC3 := by
    simp [memCopy]
  have hlen0 : ((List.replicate memSize 0).set entry 0xC3).length = memSize := by
    simp
  obtain ⟨m, hm⟩ := writeBytes_isSome 8 ((List.replicate memSize 0).set entry 0xC3)
    (memSize - 8) (memSize - 8) (by rw [hlen0]; exact hlen) (by omega)
  -- the byte at the entry address is still the ret opcode
  have hfetch : m[entry]? = some 0xC3 := by
    have h1 := writeBytes_getElem?_outside 8 _ (memSize - 8) (memSize - 8) m entry
      (by rw [hlen0]; exact hlen) (by omega) hm (by omega)
    rw [h1, List.getElem?_set_self (by simp; omega)]
  -- the 8 bytes at the sentinel address read back as the sentinel
  have hread : readBytes m (memSize - 8) 8 = some (memSize - 8) := by
    have h2 := writeThenRead_eq 8 ((List.replicate memSize 0).set entry 0xC3)
      (memSize - 8) (memSize - 8) (by rw [hlen0]; exact hlen) (by omega)
    unfold writeThenRead at h2
    rw [hm, Option.some_bind] at h2
    rw [h2, Nat.mod_eq_of_lt (by
      have hww : w64 = 2 ^ (8 * 8) := by norm_num [w64]
      omega)]
  have hinit : initState memSize entry entry [0xC3] =
      some ⟨m, regSet (regSet (fun _ => 0) rip entry) rsp (memSize - 8)⟩ := by
    unfold initState
    simp only [hcopy, hsub, hm]
  set regs0 : RegFile :=
    regSet (regSet (fun _ => 0) rip entry) rsp (memSize - 8) with hregs0
  have hrip0 : regs0 rip = entry := by
    rw [hregs0, regSet_other (by norm_num [rip, rsp]), regSet_self]
  have hrsp0 : regs0 rsp = memSize - 8 := regSet_self _ _ _
  have hscan : pfxScan m entry 32 = some (entry, 32, 0xC3) := by
    have h3 := pfxScan_stop m entry 0xC3 32 hfetch
      (by norm_num) (by norm_num)
    norm_num at h3
    exact h3
  -- first iteration: decode and execute the ret
  have hstep1 : step (sub64 memSize 8) ⟨m, regs0⟩ =
      .next ⟨m, regSet (regSet regs0 rsp (add64 (regs0 rsp) 8))
        rip (memSize - 8)⟩ := by
    rw [step_decode
      (by show regs0 rip ≠ sub64 memSize 8; rw [hrip0, hsub]; omega)
      (by show pfxScan m (regs0 rip) 32 = some (entry, 32, 0xC3)
          rw [hrip0]; exact hscan)]
    exact exec_ret ⟨m, regs0⟩ entry 32
      (by show readBytes m (regs0 rsp) 8 = _; rw [hrsp0]; exact hread)
  set regs1 : RegFile :=
    regSet (regSet regs0 rsp (add64 (regs0 rsp) 8)) rip (memSize - 8) with hregs1
  -- second iteration: the instruction pointer equals the sentinel; halt
  have hstep2 : step (sub64 memSize 8) ⟨m, regs1⟩ = .halt ⟨m, regs1⟩ :=
    step_halt (by show regs1 rip = _; rw [hregs1, regSet_self, hsub])
  have hrun : runLoop (sub64 memSize 8) 2 ⟨m, regs0⟩ = some ⟨m, regs1⟩ := by
    show runLoop _ (1 + 1) _ = _
    rw [runLoop_succ, hstep1]
    show runLoop _ (0 + 1) _ = _
    rw [runLoop_succ, hstep2]
  have hrax : regs1 rax = 0 := by
    rw [hregs1, regSet_other (by norm_num [rax, rip]),
      regSet_other (by norm_num [rax, rsp]), hregs0,
      regSet_other (by norm_num [rax, rsp]),
      regSet_other (by norm_num [rax, rip])]
  unfold runEmu
  rw [hinit]
  show (runLoop (sub64 memSize 8) 2 ⟨m, regs0⟩).map exitStatus = some 0
  rw [hrun]
  show some (exitStatus ⟨m, regs1⟩) = some 0
  unfold exitStatus
  simp only [hrax]
  norm_num [w64]

theorem ret_program_terminates_witness :
    runEmu 32 5 5 [0xC3] 2 = some 0 :=
  ret_program_terminates 32 5 (by norm_num [w64]) (by norm_num)

/-- C7: for every address `a` and width `w` in 1..8 with `a + w` exceeding
the memory size, `readBytes` and `writeBytes` take the error path (the Go
panic, `none` here) rather than wrapping to some other in-bounds address;
and for `a + w` within bounds they never take the error path. (`a < 2^64`
since Go addresses are `uint64`, and a Go slice length is below `2^64`.) -/
theorem memory_bounds_check :
    (∀ (m : List Nat) (a w v : Nat), 1 ≤ w → w ≤ 8 → a < w64 →
      m.length < w64 → m.length < a + w →
      readBytes m a w = none ∧ writeBytes m a w v = none) ∧
    (∀ (m : List Nat) (a w v : Nat), m.length < w64 → a + w ≤ m.length →
      (readBytes m a w).isSome ∧ (writeBytes m a w v).isSome) := by
  constructor
  · intro m a w v h1 _ haw hlw hoob
    obtain ⟨n, rfl⟩ : ∃ n, w = n + 1 := ⟨w - 1, by omega⟩
    exact ⟨readBytes_none n m a haw hlw (by omega),
      writeBytes_none n m a v haw hlw (by omega)⟩
  · intro m a w v hlw hin
    obtain ⟨x, hx⟩ := readBytes_isSome w m a hlw hin
    obtain ⟨y, hy⟩ := writeBytes_isSome w m a v hlw hin
    exact ⟨by rw [hx]; rfl, by rw [hy]; rfl⟩

theorem memory_bounds_check_witness :
    (readBytes (List.replicate 10 0) 7 8 = none ∧
      writeBytes (List.replicate 10 0) 7 8 5 = none) ∧
    ((readBytes (List.replicate 10 0) 2 8).isSome ∧
      (writeBytes (List.replicate 10 0) 2 8 5).isSome) :=
  ⟨memory_bounds_check.1 (List.replicate 10 0) 7 8 5 (by norm_num) (by norm_num)
      (by norm_num [w64]) (by norm_num [w64]) (by norm_num),
    memory_bounds_check.2 (List.replicate 10 0) 2 8 5 (by norm_num [w64])
      (by norm_num)⟩

/-- C8: `resolveDebuggerValue` is three-tier: a token equal to one of the
18 register names yields that register's current value; otherwise a
`0x`/`0X`-prefixed token parses its remaining characters as hexadecimal;
otherwise the token parses as decimal; in particular `resolve "0x10" = 16`,
`resolve "16" = 16`, `resolve "rsp"` is the current stack-pointer value,
and a token matching no tier returns an error. The embedding is a pure
function of the register file, so a failure mutates no register or memory
state by construction. -/
theorem resolver_three_tier :
    ∀ regs : RegFile,
      resolveDebuggerValue regs "0x10" = some 16 ∧
      resolveDebuggerValue regs "16" = some 16 ∧
      resolveDebuggerValue regs "rsp" = some (regs rsp) ∧
      (∀ r name, (r, name) ∈ registerMap →
        resolveDebuggerValue regs name = some (regs r)) ∧
      (∀ s : String, (∀ p ∈ registerMap, p.2 ≠ s) →
        s.length > 2 → (s.take 2 = "0x" ∨ s.take 2 = "0X") →
        resolveDebuggerValue regs s = parseUintGo 16 (s.drop 2)) ∧
      (∀ s : String, (∀ p ∈ registerMap, p.2 ≠ s) →
        ¬(s.length > 2 ∧ (s.take 2 = "0x" ∨ s.take 2 = "0X")) →
        resolveDebuggerValue regs s = parseUintGo 10 s) := by
  intro regs
  refine ⟨rfl, rfl, rfl, ?_, ?_, ?_⟩
  · intro r name hmem
    fin_cases hmem <;> rfl
  · intro s hname hlen hpre
    have hfind : registerMap.find? (fun p => p.2 == s) = none := by
      rw [List.find?_eq_none]
      intro p hp
      simpa using hname p hp
    unfold resolveDebuggerValue
    rw [hfind, if_pos ⟨hlen, hpre⟩]
  · intro s hname hform
    have hfind : registerMap.find? (fun p => p.2 == s) = none := by
      rw [List.find?_eq_none]
      intro p hp
      simpa using hname p hp
    unfold resolveDebuggerValue
    rw [hfind, if_neg hform]

theorem resolver_three_tier_witness :
    resolveDebuggerValue (fun i => i * 10) "rbp" = some ((fun i => i * 10) rbp) ∧
    resolveDebuggerValue (fun i => i * 10) "0xzz" = parseUintGo 16 "zz" ∧
    resolveDebuggerValue (fun i => i * 10) "q" = parseUintGo 10 "q" :=
  ⟨(resolver_three_tier (fun i => i * 10)).2.2.2.1 rbp "rbp" (by decide),
    (resolver_three_tier (fun i => i * 10)).2.2.2.2.1 "0xzz" (by decide)
      (by decide) (by decide),
    (resolver_three_tier (fun i => i * 10)).2.2.2.2.2 "q" (by decide) (by decide)⟩

/-- C5: executing `ret` (opcode 0xC3) reads 8 little-endian bytes at the
current stack pointer, increments the stack pointer by 8, sets the
instruction pointer to the value read — and does not apply the generic +1
advance: the new `rip` is exactly the value read. Memory is unchanged. -/
theorem ret_semantics (era : Nat) (s : CPUState) (ra : Nat)
    (hne : s.regs rip ≠ era)
    (hfetch : s.mem[s.regs rip]? = some 0xC3)
    (hread : readBytes s.mem (s.regs rsp) 8 = some ra)
    (hsp : s.regs rsp + 8 < w64) :
    step era s = .next ⟨s.mem,
      regSet (regSet s.regs rsp (s.regs rsp + 8)) rip ra⟩ := by
  have hscan := pfxScan_stop s.mem (s.regs rip) 0xC3 32 hfetch
    (by norm_num) (by norm_num)
  norm_num at hscan
  rw [step_decode hne hscan, exec_ret s _ 32 hread, add64_eq hsp]

theorem ret_semantics_witness :
    step 99 ⟨[0xC3, 9, 0, 0, 0, 0, 0, 0, 0], regSet (fun _ => 0) rsp 1⟩ =
      .next ⟨[0xC3, 9, 0, 0, 0, 0, 0, 0, 0],
        regSet (regSet (regSet (fun _ => 0) rsp 1) rsp (1 + 8)) rip 9⟩ := by
  have h := ret_semantics 99
    ⟨[0xC3, 9, 0, 0, 0, 0, 0, 0, 0], regSet (fun _ => 0) rsp 1⟩ 9
    (by decide) (by decide) (by decide) (by decide)
  simpa using h

/-- C6: any opcode byte outside the recognized set (not a width override
`0x48`/`0x66`, not `0x50`–`0x5F`, not `0x89`, not `0xB8`–`0xBF`, not
`0xC3`) makes the engine step fault immediately (the
`panic("Unknown instruction")`), carrying the entry state unchanged — in
particular the instruction-pointer register is not advanced. -/
theorem unknown_opcode_faults (era : Nat) (s : CPUState) (b : Nat)
    (hne : s.regs rip ≠ era)
    (hfetch : s.mem[s.regs rip]? = some b)
    (hb : b < 256)
    (h48 : b ≠ 0x48) (h66 : b ≠ 0x66)
    (hpp : ¬(0x50 ≤ b ∧ b < 0x60))
    (h89 : b ≠ 0x89)
    (hmi : ¬(0xB8 ≤ b ∧ b < 0xC0))
    (hret : b ≠ 0xC3) :
    step era s = .fault s := by
  have hmod : b % 256 = b := Nat.mod_eq_of_lt hb
  have hscan := pfxScan_stop s.mem (s.regs rip) b 32 hfetch (by omega) (by omega)
  rw [hmod] at hscan
  rw [step_decode hne hscan]
  exact exec_unknown s _ 32 b (by omega) (by omega) (by omega) (by omega)
    (by omega)

theorem unknown_opcode_faults_witness :
    step 99 ⟨[0x0F, 0, 0, 0, 0, 0, 0, 0, 0, 0], fun _ => 0⟩ =
      .fault ⟨[0x0F, 0, 0, 0, 0, 0, 0, 0, 0, 0], fun _ => 0⟩ :=
  unknown_opcode_faults 99 ⟨[0x0F, 0, 0, 0, 0, 0, 0, 0, 0, 0], fun _ => 0⟩
    0x0F (by decide) (by decide) (by decide) (by decide) (by decide)
    (by decide) (by decide) (by decide) (by decide)

/-- C3: for every register index `r < 8` encodable in the push/pop opcode
ranges (including `rsp` itself, `r = 4`) and every state where the stack
accesses are in bounds (and the pushed slot does not overlap the two
instruction bytes), executing `push R` then `pop R` restores `R`'s prior
value and leaves the stack pointer equal to its value before the push. -/
theorem push_pop_inverse (era : Nat) (s : CPUState) (r : Nat) (hr : r < 8)
    (hip1 : s.mem[s.regs rip]? = some (0x50 + r))
    (hip2 : s.mem[s.regs rip + 1]? = some (0x58 + r))
    (hsp8 : 8 ≤ s.regs rsp) (hsple : s.regs rsp ≤ s.mem.length)
    (hlen : s.mem.length < w64)
    (hdisj : s.regs rip + 2 ≤ s.regs rsp - 8)
    (hv : s.regs r < w64)
    (hne1 : s.regs rip ≠ era) (hne2 : s.regs rip + 1 ≠ era) :
    ∃ s1 s2, step era s = .next s1 ∧ step era s1 = .next s2 ∧
      s2.regs r = s.regs r ∧ s2.regs rsp = s.regs rsp := by
  have hiplt : s.regs rip < s.mem.length := (List.getElem?_eq_some_iff.mp hip1).1
  have hsub : sub64 (s.regs rsp) 8 = s.regs rsp - 8 :=
    sub64_eq hsp8 (by omega) (by norm_num [w64])
  obtain ⟨m, hm⟩ := writeBytes_isSome 8 s.mem (s.regs rsp - 8) (s.regs r)
    hlen (by omega)
  have hmlen : m.length = s.mem.length := writeBytes_length 8 _ _ _ _ hm
  -- first step: the push
  have hmod1 : (0x50 + r) % 256 = 0x50 + r := Nat.mod_eq_of_lt (by omega)
  have hscan1 := pfxScan_stop s.mem (s.regs rip) (0x50 + r) 32 hip1
    (by omega) (by omega)
  rw [hmod1] at hscan1
  have hstep1 : step era s = .next ⟨m,
      regSet (regSet s.regs rsp (sub64 (s.regs rsp) 8))
        rip (add64 (s.regs rip) 1)⟩ := by
    rw [step_decode hne1 hscan1]
    exact exec_push s _ 32 r hr (by rw [hsub]; exact hm)
  set regs1 : RegFile :=
    regSet (regSet s.regs rsp (sub64 (s.regs rsp) 8))
      rip (add64 (s.regs rip) 1) with hregs1
  have hadd1 : add64 (s.regs rip) 1 = s.regs rip + 1 := add64_eq (by omega)
  have hrip1 : regs1 rip = s.regs rip + 1 := by
    rw [hregs1, regSet_self, hadd1]
  have hrsp1 : regs1 rsp = s.regs rsp - 8 := by
    rw [hregs1, regSet_other (by norm_num [rip, rsp]), regSet_self, hsub]
  -- the pop opcode byte was not clobbered by the push
  have hfetch2 : m[s.regs rip + 1]? = some (0x58 + r) := by
    have h1 := writeBytes_getElem?_outside 8 s.mem (s.regs rsp - 8) (s.regs r)
      m (s.regs rip + 1) hlen (by omega) hm (by omega)
    rw [h1]
    exact hip2
  -- the pushed 8 bytes read back as the register's value
  have hread2 : readBytes m (s.regs rsp - 8) 8 = some (s.regs r) := by
    have h2 := writeThenRead_eq 8 s.mem (s.regs rsp - 8) (s.regs r)
      hlen (by omega)
    unfold writeThenRead at h2
    rw [hm, Option.some_bind] at h2
    rw [h2, Nat.mod_eq_of_lt (by
      have hww : w64 = 2 ^ (8 * 8) := by norm_num [w64]
      omega)]
  -- second step: the pop
  have hmod2 : (0x58 + r) % 256 = 0x58 + r := Nat.mod_eq_of_lt (by omega)
  have hscan2 := pfxScan_stop m (s.regs rip + 1) (0x58 + r) 32 hfetch2
    (by omega) (by omega)
  rw [hmod2] at hscan2
  have hstep2 : step era ⟨m, regs1⟩ = .next ⟨m,
      regSet (regSet (regSet regs1 r (s.regs r))
        rsp (add64 (regs1 rsp) 8)) rip (add64 (s.regs rip + 1) 1)⟩ := by
    rw [step_decode (by show regs1 rip ≠ era; rw [hrip1]; exact hne2)
      (by show pfxScan m (regs1 rip) 32 = _; rw [hrip1]; exact hscan2)]
    exact exec_pop ⟨m, regs1⟩ _ 32 r hr
      (by show readBytes m (regs1 rsp) 8 = _; rw [hrsp1]; exact hread2)
  have haddsp : add64 (regs1 rsp) 8 = s.regs rsp := by
    rw [hrsp1, add64_eq (by omega)]
    omega
  refine ⟨_, _, hstep1, hstep2, ?_, ?_⟩
  · show regSet (regSet (regSet regs1 r (s.regs r))
      rsp (add64 (regs1 rsp) 8)) rip (add64 (s.regs rip + 1) 1) r = s.regs r
    rw [regSet_other (by norm_num [rip]; omega)]
    by_cases hr4 : r = rsp
    · subst hr4
      rw [regSet_self, haddsp]
    · rw [regSet_other (by simpa [eq_comm] using hr4), regSet_self]
  · show regSet (regSet (regSet regs1 r (s.regs r))
      rsp (add64 (regs1 rsp) 8)) rip (add64 (s.regs rip + 1) 1) rsp = s.regs rsp
    rw [regSet_other (by norm_num [rip, rsp]), regSet_self, haddsp]

theorem push_pop_inverse_witness :
    ∃ s1 s2,
      step 99 ⟨[0x54, 0x5C, 0, 0, 0, 0, 0, 0, 0, 0, 0, 0, 0, 0, 0, 0],
        regSet (fun _ => 0) rsp 16⟩ = .next s1 ∧
      step 99 s1 = .next s2 ∧
      s2.regs rsp = regSet (fun _ => 0) rsp 16 rsp ∧
      s2.regs rsp = regSet (fun _ => 0) rsp 16 rsp := by
  have h := push_pop_inverse 99
    ⟨[0x54, 0x5C, 0, 0, 0, 0, 0, 0, 0, 0, 0, 0, 0, 0, 0, 0],
      regSet (fun _ => 0) rsp 16⟩ 4 (by decide)
    (by decide) (by decide) (by decide) (by decide) (by decide) (by decide)
    (by decide) (by decide) (by decide)
  obtain ⟨s1, s2, h1, h2, h3, h4⟩ := h
  exact ⟨s1, s2, h1, h2, h3, h4⟩

/-- C4: move-immediate (opcode `0xB8 + r`): with the `0x48` override the
full 8 immediate bytes following the opcode load little-endian into the
register; with no override only the low 4 bytes load (the stored value is
below `2^32` — upper 32 bits zero, no sign extension); with the `0x66`
override 2 bytes load; and in each case the instruction pointer advances by
1 (opcode) plus the number of immediate bytes plus any override bytes. -/
theorem movimm_semantics :
    (∀ (era : Nat) (s : CPUState) (r v : Nat), r < 8 →
      s.regs rip ≠ era →
      s.mem[s.regs rip]? = some 0x48 →
      s.mem[s.regs rip + 1]? = some (0xB8 + r) →
      readBytes s.mem (s.regs rip + 2) 8 = some v →
      s.regs rip + 10 < w64 →
      step era s =
        .next ⟨s.mem, regSet (regSet s.regs r v) rip (s.regs rip + 10)⟩) ∧
    (∀ (era : Nat) (s : CPUState) (r v : Nat), r < 8 →
      s.regs rip ≠ era →
      s.mem[s.regs rip]? = some (0xB8 + r) →
      readBytes s.mem (s.regs rip + 1) 4 = some v →
      s.regs rip + 5 < w64 →
      v < 2 ^ 32 ∧
      step era s =
        .next ⟨s.mem, regSet (regSet s.regs r v) rip (s.regs rip + 5)⟩) ∧
    (∀ (era : Nat) (s : CPUState) (r v : Nat), r < 8 →
      s.regs rip ≠ era →
      s.mem[s.regs rip]? = some 0x66 →
      s.mem[s.regs rip + 1]? = some (0xB8 + r) →
      readBytes s.mem (s.regs rip + 2) 2 = some v →
      s.regs rip + 4 < w64 →
      step era s =
        .next ⟨s.mem, regSet (regSet s.regs r v) rip (s.regs rip + 4)⟩) := by
  refine ⟨?_, ?_, ?_⟩
  · intro era s r v hr hne h48 hop hread hw
    have hskip := pfxScan_skip48 s.mem (s.regs rip) 0x48 32 h48
      (by norm_num)
    have hmod : (0xB8 + r) % 256 = 0xB8 + r := Nat.mod_eq_of_lt (by omega)
    have hstop := pfxScan_stop s.mem (s.regs rip + 1) (0xB8 + r) 64 hop
      (by omega) (by omega)
    rw [hmod] at hstop
    rw [step_decode hne (hskip.trans hstop)]
    rw [show s.regs rip + 2 = s.regs rip + 1 + 1 from by omega] at hread
    have h := exec_movimm s (s.regs rip + 1) 64 r hr
      (by norm_num; exact hread)
    rw [h]
    have hinner : add64 (s.regs rip + 1) (64 / 8) = s.regs rip + 9 := by
      rw [add64_eq (by norm_num; omega)]
    rw [hinner, add64_eq (by omega)]
  · intro era s r v hr hne hop hread hw
    have hv : v < 2 ^ 32 := by
      have := readBytes_lt 4 s.mem (s.regs rip + 1) v hread
      norm_num at this
      exact this
    refine ⟨hv, ?_⟩
    have hmod : (0xB8 + r) % 256 = 0xB8 + r := Nat.mod_eq_of_lt (by omega)
    have hstop := pfxScan_stop s.mem (s.regs rip) (0xB8 + r) 32 hop
      (by omega) (by omega)
    rw [hmod] at hstop
    rw [step_decode hne hstop]
    have h := exec_movimm s (s.regs rip) 32 r hr (by norm_num; exact hread)
    rw [h]
    have hinner : add64 (s.regs rip) (32 / 8) = s.regs rip + 4 := by
      rw [add64_eq (by norm_num; omega)]
    rw [hinner, add64_eq (by omega)]
  · intro era s r v hr hne h66 hop hread hw
    have hskip := pfxScan_skip66 s.mem (s.regs rip) 0x66 32 h66
      (by norm_num)
    have hmod : (0xB8 + r) % 256 = 0xB8 + r := Nat.mod_eq_of_lt (by omega)
    have hstop := pfxScan_stop s.mem (s.regs rip + 1) (0xB8 + r) 16 hop
      (by omega) (by omega)
    rw [hmod] at hstop
    rw [step_decode hne (hskip.trans hstop)]
    rw [show s.regs rip + 2 = s.regs rip + 1 + 1 from by omega] at hread
    have h := exec_movimm s (s.regs rip + 1) 16 r hr
      (by norm_num; exact hread)
    rw [h]
    have hinner : add64 (s.regs rip + 1) (16 / 8) = s.regs rip + 3 := by
      rw [add64_eq (by norm_num; omega)]
    rw [hinner, add64_eq (by omega)]

theorem movimm_semantics_witness :
    step 99 ⟨[0x48, 0xB8, 1, 2, 3, 4, 5, 6, 7, 8, 0, 0], fun _ => 0⟩ =
      .next ⟨[0x48, 0xB8, 1, 2, 3, 4, 5, 6, 7, 8, 0, 0],
        regSet (regSet (fun _ => 0) 0 0x0807060504030201) rip 10⟩ ∧
    (0x04030201 < 2 ^ 32 ∧
      step 99 ⟨[0xB8, 1, 2, 3, 4, 0, 0], fun _ => 0⟩ =
        .next ⟨[0xB8, 1, 2, 3, 4, 0, 0],
          regSet (regSet (fun _ => 0) 0 0x04030201) rip 5⟩) ∧
    step 99 ⟨[0x66, 0xB8, 1, 2, 0, 0], fun _ => 0⟩ =
      .next ⟨[0x66, 0xB8, 1, 2, 0, 0],
        regSet (regSet (fun _ => 0) 0 0x0201) rip 4⟩ := by
  refine ⟨?_, ?_, ?_⟩
  · have h := movimm_semantics.1 99
      ⟨[0x48, 0xB8, 1, 2, 3, 4, 5, 6, 7, 8, 0, 0], fun _ => 0⟩ 0
      0x0807060504030201 (by decide) (by decide) (by decide) (by decide)
      (by decide) (by decide)
    simpa using h
  · have h := movimm_semantics.2.1 99
      ⟨[0xB8, 1, 2, 3, 4, 0, 0], fun _ => 0⟩ 0 0x04030201
      (by decide) (by decide) (by decide) (by decide) (by decide)
    simpa using h
  · have h := movimm_semantics.2.2 99
      ⟨[0x66, 0xB8, 1, 2, 0, 0], fun _ => 0⟩ 0 0x0201
      (by decide) (by decide) (by decide) (by decide) (by decide) (by decide)
    simpa using h

/-- One executed step writes only a destination register below 8, `rsp`
and `rip`: any register index in 8–15 or equal to 17 that held 0 still
holds 0 afterwards. -/
theorem step_preserves_high (era : Nat) (s t : CPUState) (i : Nat)
    (hi : (8 ≤ i ∧ i ≤ 15) ∨ i = 17)
    (h : step era s = .next t)
    (h0 : s.regs i = 0) : t.regs i = 0 := by
  unfold step at h
  split at h
  · exact absurd h (by simp)
  split at h
  · exact absurd h (by simp)
  rename_i ip wdt b _
  have hnrip : i ≠ rip := by norm_num [rip]; omega
  have hnrsp : i ≠ rsp := by norm_num [rsp]; omega
  unfold exec at h
  split_ifs at h with h1 h2 h3 h4 h5
  · -- push
    split at h
    · exact absurd h (by simp)
    cases h
    dsimp only
    rw [regSet_other hnrip, regSet_other hnrsp]
    exact h0
  · -- pop
    split at h
    · exact absurd h (by simp)
    cases h
    dsimp only
    rw [regSet_other hnrip, regSet_other hnrsp,
      regSet_other (show i ≠ b - 0x58 from by omega)]
    exact h0
  · -- mov reg, reg
    split at h
    · exact absurd h (by simp)
    rename_i inb2 _
    cases h
    have hlhs : (inb2 % 256) &&& 0b111 ≤ 0b111 := Nat.and_le_right
    dsimp only
    rw [regSet_other hnrip,
      regSet_other (show i ≠ (inb2 % 256) &&& 0b111 from by omega)]
    exact h0
  · -- mov reg, imm
    split at h
    · exact absurd h (by simp)
    cases h
    dsimp only
    rw [regSet_other hnrip,
      regSet_other (show i ≠ b - 0xB8 from by omega)]
    exact h0
  · -- ret
    split at h
    · exact absurd h (by simp)
    cases h
    dsimp only
    rw [regSet_other hnrip, regSet_other hnrsp]
    exact h0

theorem stepN_preserves_high (era : Nat) :
    ∀ (n : Nat) (s t : CPUState) (i : Nat),
    ((8 ≤ i ∧ i ≤ 15) ∨ i = 17) →
    stepN era n s = some t → s.regs i = 0 → t.regs i = 0
  | 0, s, t, i, _, h, h0 => by
    simp only [stepN, Option.some.injEq] at h
    rw [← h]
    exact h0
  | n + 1, s, t, i, hi, h, h0 => by
    rw [stepN_succ] at h
    split at h
    · rename_i u hu
      exact stepN_preserves_high era n u t i hi h
        (step_preserves_high era s u i hi hu h0)
    · exact absurd h (by simp)

/-- C10: in every state reachable from a freshly constructed cpu (the
bootstrap of `cpu.run` over any program image) by any number of engine
steps, the registers `r8`–`r15` and the flags register `rflags` still hold
0: every decode path derives its destination register index from 3 bits
(values 0–7), and only `rsp` and `rip` are written explicitly. -/
theorem high_registers_stay_zero (memSize startAddress entryPoint : Nat)
    (bin : List Nat) (s0 t : CPUState) (n : Nat)
    (hinit : initState memSize startAddress entryPoint bin = some s0)
    (hrun : stepN (sub64 memSize 8) n s0 = some t) :
    ∀ i, (8 ≤ i ∧ i ≤ 15) ∨ i = 17 → t.regs i = 0 := by
  intro i hi
  have h0 : s0.regs i = 0 := by
    have hnrip : i ≠ rip := by norm_num [rip]; omega
    have hnrsp : i ≠ rsp := by norm_num [rsp]; omega
    unfold initState at hinit
    split at hinit
    · exact absurd hinit (by simp)
    simp only [Option.some.injEq] at hinit
    subst hinit
    show regSet (regSet (fun _ => 0) rip entryPoint)
      rsp (sub64 memSize 8) i = 0
    rw [regSet_other hnrsp, regSet_other hnrip]
  exact stepN_preserves_high (sub64 memSize 8) n s0 t i hi hrun h0

theorem high_registers_stay_zero_witness :
    ∃ s0 t, initState 16 0 0 [0x50] = some s0 ∧
      stepN (sub64 16 8) 1 s0 = some t ∧
      t.regs r9 = 0 ∧ t.regs rflags = 0 := by
  have hinit : initState 16 0 0 [0x50] =
      some ⟨[0x50, 0, 0, 0, 0, 0, 0, 0, 8, 0, 0, 0, 0, 0, 0, 0],
        regSet (regSet (fun _ => 0) rip 0) rsp 8⟩ := rfl
  set s0 : CPUState :=
    ⟨[0x50, 0, 0, 0, 0, 0, 0, 0, 8, 0, 0, 0, 0, 0, 0, 0],
      regSet (regSet (fun _ => 0) rip 0) rsp 8⟩ with hs0
  -- derive the single push step through the decode lemmas
  have hscan : pfxScan s0.mem (s0.regs rip) 32 = some (0, 32, 0x50) := by
    have h := pfxScan_stop s0.mem 0 0x50 32 (by decide)
      (by decide) (by decide)
    norm_num at h
    exact h
  have hwrite : writeBytes s0.mem (sub64 (s0.regs rsp) 8) 8 (s0.regs 0) =
      some [0, 0, 0, 0, 0, 0, 0, 0, 8, 0, 0, 0, 0, 0, 0, 0] := by decide
  have hstep : step (sub64 16 8) s0 =
      .next ⟨[0, 0, 0, 0, 0, 0, 0, 0, 8, 0, 0, 0, 0, 0, 0, 0],
        regSet (regSet s0.regs rsp (sub64 (s0.regs rsp) 8))
          rip (add64 0 1)⟩ := by
    rw [step_decode (by decide) hscan]
    exact exec_push s0 0 32 0 (by decide) hwrite
  have hrun : stepN (sub64 16 8) 1 s0 =
      some ⟨[0, 0, 0, 0, 0, 0, 0, 0, 8, 0, 0, 0, 0, 0, 0, 0],
        regSet (regSet s0.regs rsp (sub64 (s0.regs rsp) 8))
          rip (add64 0 1)⟩ := by
    rw [stepN_succ, hstep]
    rfl
  exact ⟨s0, _, hinit, hrun,
    high_registers_stay_zero 16 0 0 [0x50] s0 _ 1 hinit hrun r9 (by decide),
    high_registers_stay_zero 16 0 0 [0x50] s0 _ 1 hinit hrun rflags (by decide)⟩

end Emu
